import Mathlib

/-!
Verification of the graphgames simulation core against its specification.

The JavaScript sources are embedded shallowly:
* `number` values that the dynamics compares and floors are modelled as `ℚ`
  (exact arithmetic; every concrete value appearing in the closed evaluation
  theorems below is exactly representable in IEEE double, so those
  evaluations agree bit-for-bit with the JS engine).
* the xorshift32 PRNG state is a `Nat` below `2 ^ 32`; every JS `>>> 0`
  truncation is an explicit `% 4294967296`.
* in-place mutation of the strategy `Uint8Array` is modelled by returning the
  updated list together with the updated RNG state.
* `Math.exp` inside the Fermi rule is kept abstract as a function parameter
  `fexp : ℚ → ℚ`; no claim below depends on its values.
-/

/-- Size of the 32-bit state space, `2 ^ 32`. -/
def u32size : Nat := 4294967296

/-- One xorshift "left" round of `rng.js`: `x ^= x << k; x >>>= 0`.
The JS left shift and xor act on the low 32 bits, hence the truncation. -/
def xsl (k x : Nat) : Nat := x ^^^ ((x <<< k) % u32size)

/-- The xorshift "right" round of `rng.js`: `x ^= x >>> 17`. -/
def xsr (x : Nat) : Nat := x ^^^ (x >>> 17)

/-- `RNG.nextU32` of `rng.js`: the three xorshift32 rounds with shifts
13, 17, 5; the returned value is also the new state. -/
def nextU32 (x : Nat) : Nat := xsl 5 (xsr (xsl 13 x))

/-- The `RNG` constructor of `rng.js`: `this.state = (seed >>> 0) || 1`. -/
def mkState (seed : Nat) : Nat :=
  if seed % u32size = 0 then 1 else seed % u32size

/-- `RNG.random()` of `rng.js`: `nextU32() / 0xFFFFFFFF`, together with the
updated state.  Note the divisor is `2 ^ 32 - 1`, not `2 ^ 32`. -/
def rngRandom (s : Nat) : ℚ × Nat := ((nextU32 s : ℚ) / 4294967295, nextU32 s)

/-- `Math.floor` on the non-negative numbers this program floors. -/
def jsFloor (q : ℚ) : Nat := (⌊q⌋).toNat

/-- `RNG.int(maxExclusive)` of `rng.js`: `Math.floor(random() * maxExclusive)`,
with the updated state. -/
def rngInt (s b : Nat) : Nat × Nat :=
  (jsFloor ((rngRandom s).1 * b), (rngRandom s).2)

/-- The stream of successive `nextU32` outputs from a given state: the n-th
value every consumer of the RNG sees. -/
def rngStream (s : Nat) : Nat → Nat
  | 0 => nextU32 s
  | n + 1 => nextU32 (rngStream s n)

/-!
Graph model, from `graph.js`.  The adjacency array is modelled as a function
`Nat → List Nat` (every index the JS code ever touches is below `N`; untouched
indices stay `[]`, the constructor value).  Display positions and their PRNG
draws are omitted: they are consumed after all edge draws and no claim
observes them.
-/

/-- An undirected graph as in `graph.js`: node count and adjacency lists. -/
structure Graph where
  N : Nat
  adj : Nat → List Nat

/-- The `Graph` constructor: `N` nodes, all adjacency lists empty. -/
def newGraph (N : Nat) : Graph := ⟨N, fun _ => []⟩

/-- Append `x` to the list unless already present — one half of
`Graph.addEdge`'s duplicate check (`includes` then `push`). -/
def pushNb (l : List Nat) (x : Nat) : List Nat := if x ∈ l then l else l ++ [x]

/-- `Graph.addEdge(u, v)`: self-loops are skipped, then `v` is pushed onto
`adj[u]` and `u` onto `adj[v]`, each unless already present.  The two source
updates touch distinct lists (for `u ≠ v`), so they commute into one
pointwise update. -/
def addEdge (g : Graph) (u v : Nat) : Graph :=
  if u = v then g
  else
    { g with
      adj := fun i =>
        if i = u then pushNb (g.adj u) v
        else if i = v then pushNb (g.adj v) u
        else g.adj i }

/-- Fold a list of candidate edges through `addEdge`. -/
def addEdges (g : Graph) (ps : List (Nat × Nat)) : Graph :=
  ps.foldl (fun h p => addEdge h p.1 p.2) g

/-- `Graph.degree(i)`: length of the adjacency list. -/
def degree (g : Graph) (i : Nat) : Nat := (g.adj i).length

/-- `Graph.edgeCount()`: half the sum of the degrees (exact whenever the sum
is even, which symmetry guarantees for every generated graph). -/
def edgeCount (g : Graph) : Nat :=
  (((List.range g.N).map (fun i => degree g i)).sum) / 2

/-- The candidate edges laid down by `makeRing`'s two nested loops: for each
node `i` and each `d = d0 + 1` from 1 to `k / 2`, the pairs
`(i, (i + d) % N)` and `(i, (i - d + N) % N)`.  The JS index `i - d + N` is
non-negative whenever `d ≤ N`, so Nat subtraction in `i + N - d` is faithful
there; the only other case `makeRing` reaches is `N = 1` (see its guard),
where the JS remainder is `-0`, `addEdge(0, -0)` is skipped by the
`0 === -0` self-loop check, and the truncated Nat value `0` is skipped as
the self-loop `(0, 0)` — the same empty graph. -/
def ringPairs (N k : Nat) : List (Nat × Nat) :=
  (List.range N).flatMap fun i =>
    (List.range (k / 2)).flatMap fun d0 =>
      [(i, (i + (d0 + 1)) % N), (i, (i + N - (d0 + 1)) % N)]

/-- The graph `makeRing` actually builds (before error checks). -/
def ringG (N k : Nat) : Graph := addEdges (newGraph N) (ringPairs N k)

/-- `makeRing(N, k)` of `graph.js`.  The first error is the source's explicit
odd-degree check.  The second models the `TypeError` the source runs into
when `k / 2 > N ≥ 2`: at `i = 0, d = N + 1` the JS expression
`(i - d + N) % N` evaluates to the negative remainder `-1`, `this.adj[-1]`
is `undefined`, and `undefined.includes` throws before the graph is
returned.  `N = 1` is excluded from the guard: there every remainder by 1
is `0` or `-0`, `addEdge` skips both as self-loops (`0 === -0`), and the
source returns the empty one-node graph — as `ringG 1 k` does here. -/
def makeRing (N k : Nat) : Except String Graph :=
  if k % 2 ≠ 0 then Except.error "Ring degree k must be even."
  else if 1 < N ∧ N < k / 2 then Except.error "TypeError: negative adjacency index"
  else Except.ok (ringG N k)

/-- The index helper of `makeLattice`:
`idx(x, y) = ((y + L) % L) * L + ((x + L) % L)`. -/
def latIdx (L x y : Nat) : Nat := ((y + L) % L) * L + ((x + L) % L)

/-- The candidate edges of `makeLattice`'s double loop: each cell connects to
its four von Neumann neighbours with periodic wraparound.  The JS arguments
`x - 1` and `y - 1` are modelled as `x + L - 1` and `y + L - 1`, which agree
with `idx`'s own `+ L` normalisation for all `x, y < L`. -/
def latticePairs (L : Nat) : List (Nat × Nat) :=
  (List.range L).flatMap fun y =>
    (List.range L).flatMap fun x =>
      [(latIdx L x y, latIdx L (x + 1) y),
       (latIdx L x y, latIdx L (x + L - 1) y),
       (latIdx L x y, latIdx L x (y + 1)),
       (latIdx L x y, latIdx L x (y + L - 1))]

/-- The graph `makeLattice` builds for a perfect-square `N`. -/
def latticeG (N : Nat) : Graph := addEdges (newGraph N) (latticePairs (Nat.sqrt N))

/-- `makeLattice(N)` of `graph.js`.  The source computes
`L = Math.round(Math.sqrt(N))` and rejects unless `L * L === N`; we use
`Nat.sqrt`
instead of rounding, which has the same success set (both conditions hold
exactly for perfect squares) and the same `L` on it (float `sqrt` is exact on
perfect squares in the `parseInt` range). -/
def makeLattice (N : Nat) : Except String Graph :=
  if Nat.sqrt N * Nat.sqrt N ≠ N then
    Except.error "For lattice, N must be a perfect square (e.g., 400, 900)."
  else Except.ok (latticeG N)

/-- One inner-loop iteration of `makeErdosRenyi`: draw once, then add the
edge `(i, j)` when the draw is below `p`. -/
def erInner (p : ℚ) (i : Nat) (gs : Graph × Nat) (j : Nat) : Graph × Nat :=
  ((if (rngRandom gs.2).1 < p then addEdge gs.1 i j else gs.1), (rngRandom gs.2).2)

/-- `makeErdosRenyi(N, p, rng)` of `graph.js`: one PRNG draw for every
unordered pair `i < j`, in loop order.  The trailing position draws are
omitted (display only, drawn after all edge draws). -/
def makeErdosRenyi (N : Nat) (p : ℚ) (s : Nat) : Graph × Nat :=
  (List.range N).foldl
    (fun gs i => (List.range' (i + 1) (N - (i + 1))).foldl (erInner p i) gs)
    (newGraph N, s)

/-- The seed clique pairs of `makeBA`: all `(i, j)` with `i < j < m0`. -/
def cliquePairs (m0 : Nat) : List (Nat × Nat) :=
  (List.range m0).flatMap fun i =>
    (List.range' (i + 1) (m0 - (i + 1))).map fun j => (i, j)

/-- The target-selection `while` loop of `makeBA`: repeatedly sample the
degree-proportional pool until `m` distinct targets are collected.  The JS
loop has no bound, so it takes explicit fuel; `targets` is the JS `Set` in
insertion order.  An out-of-range pool index (possible only through the
`rng.int` overshoot, see the C10 analysis) reads `undefined` and makes the
source throw when the edge is added, modelled as an error. -/
def pickTargets (pool : List Nat) (m : Nat) :
    Nat → List Nat → Nat → Except String (List Nat × Nat)
  | 0, _, _ => Except.error "fuel exhausted"
  | fuel + 1, targets, s =>
    if m ≤ targets.length then Except.ok (targets, s)
    else
      match pool.get? (rngInt s pool.length).1 with
      | none => Except.error "TypeError: undefined pool element"
      | some t =>
        pickTargets pool m fuel (if t ∈ targets then targets else targets ++ [t])
          (rngInt s pool.length).2

/-- The growth loop of `makeBA`: for each new node `v`, pick targets, add the
edges, then extend the pool with `v` once per unit of its new degree and each
chosen target once — exactly the source's pool update. -/
def baLoop (m fuel : Nat) : List Nat → Graph → List Nat → Nat → Except String Graph
  | [], g, _, _ => Except.ok g
  | v :: vs, g, pool, s =>
    match pickTargets pool m fuel [] s with
    | Except.error e => Except.error e
    | Except.ok (targets, s') =>
      let g' := targets.foldl (fun h u => addEdge h v u) g
      baLoop m fuel vs g' ((pool ++ List.replicate (degree g' v) v) ++ targets) s'

/-- `makeBA(N, m0, m, rng)` of `graph.js`: parameter checks, `m0`-clique,
degree-proportional pool, then the growth loop.  Position draws omitted.
The third error models the `TypeError` the source runs into when
`N < m0`: the clique loop then reaches a node index `≥ N`, whose adjacency
slot is `undefined`, and `addEdge` throws before anything is returned. -/
def makeBA (N m0 m : Nat) (s fuel : Nat) : Except String Graph :=
  if m0 < 2 then Except.error "BA: m0 must be >= 2"
  else if m < 1 ∨ m0 ≤ m then Except.error "BA: require 1 <= m < m0"
  else if N < m0 then Except.error "TypeError: clique node out of range"
  else
    baLoop m fuel (List.range' m0 (N - m0))
      (addEdges (newGraph N) (cliquePairs m0))
      ((List.range m0).flatMap fun i =>
        List.replicate (degree (addEdges (newGraph N) (cliquePairs m0)) i) i)
      s

/-!
Evolutionary dynamics, from `evo.js`.  Strategy arrays (`Uint8Array` in the
source) are lists of naturals; `strat[x]` for an in-range index is
`List.getD x 0`.  The JS quirks that the claims hinge on are modelled
explicitly where they are reachable: reading a typed array out of range
yields `undefined` (here `Option.none` via `List.get?`), and storing
`undefined` or `NaN` into a `Uint8Array` stores `0`.
-/

/-- The 2x2 game matrix of `evo.js`. -/
structure GameMatrix where
  R : ℚ
  S : ℚ
  T : ℚ
  P : ℚ

/-- `donationToMatrix(b, c)` of `evo.js`. -/
def donationToMatrix (b c : ℚ) : GameMatrix := ⟨b - c, -c, b, 0⟩

/-- The payoff a node of strategy `si` collects from one neighbour of
strategy `sj` — the `if` chain inside `computePayoffs`. -/
def payoffEntry (M : GameMatrix) (si sj : Nat) : ℚ :=
  if si = 1 ∧ sj = 1 then M.R
  else if si = 1 ∧ sj = 0 then M.S
  else if si = 0 ∧ sj = 1 then M.T
  else M.P

/-- The inner accumulation loop of `computePayoffs` over one adjacency
list (`sum += ...` in source order). -/
def payRow (M : GameMatrix) (strat : List Nat) (si : Nat) : List Nat → ℚ → ℚ
  | [], acc => acc
  | j :: rest, acc => payRow M strat si rest (acc + payoffEntry M si (strat.getD j 0))

/-- `computePayoffs(g, strat, M)` of `evo.js`: for each node, the summed
matrix entries against its neighbours.  A pure function: it takes no RNG
state and returns a fresh list. -/
def computePayoffs (g : Graph) (strat : List Nat) (M : GameMatrix) : List ℚ :=
  (List.range g.N).map fun i => payRow M strat (strat.getD i 0) (g.adj i) 0

/-- The matrix entry as the specification words it: `(C,C) → R`,
`(C,D) → S`, `(D,C) → T`, `(D,D) → P`, with cooperators encoded as 1. -/
def specMatrixEntry (M : GameMatrix) (si sj : Nat) : ℚ :=
  if si = 1 then (if sj = 1 then M.R else M.S)
  else (if sj = 1 then M.T else M.P)

/-- The fitness map of `evo.js`: `max(0, (1 - w) + w * payoff)`. -/
def fitnessOf (w pay : ℚ) : ℚ := max 0 ((1 - w) + w * pay)

/-- The subtraction loop of `pickWeightedIndex`: walk the weights,
subtracting, and return the first index at which the remainder drops to or
below zero; past the end the source returns `weights.length - 1`, passed
here as `last`. -/
def pickLoop : List ℚ → ℚ → Nat → Nat → Nat
  | [], _, _, last => last
  | w :: rest, r, idx, last =>
    if r - w ≤ 0 then idx else pickLoop rest (r - w) (idx + 1) last

/-- `pickWeightedIndex(weights, rng)` of `evo.js`: with non-positive total
weight, fall back to a uniform index draw; otherwise scale one draw by the
total and walk the weights. -/
def pickWeightedIndex (weights : List ℚ) (s : Nat) : Nat × Nat :=
  if weights.sum ≤ 0 then rngInt s weights.length
  else
    (pickLoop weights ((rngRandom s).1 * weights.sum) 0 (weights.length - 1),
     (rngRandom s).2)

/-- The node `stepDB` draws to die: `rng.int(N)` on the incoming state. -/
def dbDead (g : Graph) (s : Nat) : Nat := (rngInt s g.N).1

/-- `stepDB(g, strat, M, w, mu, rng)` of `evo.js`.  A dead node whose
adjacency list is empty ends the tick (this branch also covers the
`rng.int` overshoot `dead = N`, where the source itself crashes on
`undefined.length` — see C10).  The winner index may equal `neigh.length`
(again only through the overshoot); the source then reads
`neigh[winnerIdx] = undefined`, `strat[undefined] = undefined`, and finally
stores `undefined` (or `NaN` after a mutation flip) into the `Uint8Array`,
which writes `0` — modelled by the `Option` pipeline below. -/
def stepDB (g : Graph) (strat : List Nat) (M : GameMatrix) (w mu : ℚ) (s : Nat) :
    List Nat × Nat :=
  let pay := computePayoffs g strat M
  let dead := dbDead g s
  let s1 := (rngInt s g.N).2
  let neigh := g.adj dead
  if neigh.length = 0 then (strat, s1)
  else
    let fit := neigh.map fun j => fitnessOf w (pay.getD j 0)
    let wi := (pickWeightedIndex fit s1).1
    let s2 := (pickWeightedIndex fit s1).2
    let childO := (neigh.get? wi).map fun parent => strat.getD parent 0
    let cs :=
      if 0 < mu then
        ((if (rngRandom s2).1 < mu then childO.map (fun c => 1 - c) else childO),
         (rngRandom s2).2)
      else (childO, s2)
    (strat.set dead (cs.1.getD 0), cs.2)

/-- The parent `stepBD` selects: fitness-weighted over the whole population. -/
def bdParent (g : Graph) (strat : List Nat) (M : GameMatrix) (w : ℚ) (s : Nat) : Nat :=
  (pickWeightedIndex
    ((List.range g.N).map fun i =>
      fitnessOf w ((computePayoffs g strat M).getD i 0)) s).1

/-- The neighbour of the parent that `stepBD` replaces (0 when the uniform
neighbour draw overshoots; the source then assigns to `strat[undefined]`,
a silent no-op, handled in `stepBD` itself). -/
def bdDead (g : Graph) (strat : List Nat) (M : GameMatrix) (w : ℚ) (s : Nat) : Nat :=
  let parent := bdParent g strat M w s
  let s1 :=
    (pickWeightedIndex
      ((List.range g.N).map fun i =>
        fitnessOf w ((computePayoffs g strat M).getD i 0)) s).2
  (g.adj parent).getD (rngInt s1 (g.adj parent).length).1 0

/-- `stepBD(g, strat, M, w, mu, rng)` of `evo.js`.  An isolated parent ends
the tick (this branch also covers the fallback-draw overshoot `parent = N`,
where the source itself crashes on `undefined.length`).  If the neighbour
draw overshoots (`rng.int` bug), the source assigns to `strat[undefined]`,
which on a `Uint8Array` changes nothing. -/
def stepBD (g : Graph) (strat : List Nat) (M : GameMatrix) (w mu : ℚ) (s : Nat) :
    List Nat × Nat :=
  let pay := computePayoffs g strat M
  let fitAll := (List.range g.N).map fun i => fitnessOf w (pay.getD i 0)
  let parent := (pickWeightedIndex fitAll s).1
  let s1 := (pickWeightedIndex fitAll s).2
  let neigh := g.adj parent
  if neigh.length = 0 then (strat, s1)
  else
    let idx := (rngInt s1 neigh.length).1
    let s2 := (rngInt s1 neigh.length).2
    let child0 := strat.getD parent 0
    let cs :=
      if 0 < mu then
        ((if (rngRandom s2).1 < mu then 1 - child0 else child0), (rngRandom s2).2)
      else (child0, s2)
    match neigh.get? idx with
    | some dead => (strat.set dead cs.1, cs.2)
    | none => (strat, cs.2)

/-- The focal node `stepImitationFermi` draws: `rng.int(N)`. -/
def imFocal (g : Graph) (s : Nat) : Nat := (rngInt s g.N).1

/-- `stepImitationFermi(g, strat, M, beta, mu, rng)` of `evo.js`.  `fexp`
stands for `Math.exp`.  An isolated focal node ends the tick (also covering
the overshoot `i = N`, where the source crashes on `undefined.length`).  If
the neighbour draw overshoots, the source computes a `NaN` adoption
probability, consumes the adoption draw, and the `<` comparison is false —
nothing is written. -/
def stepImitationFermi (fexp : ℚ → ℚ) (g : Graph) (strat : List Nat)
    (M : GameMatrix) (beta mu : ℚ) (s : Nat) : List Nat × Nat :=
  let pay := computePayoffs g strat M
  let i := imFocal g s
  let s1 := (rngInt s g.N).2
  let neigh := g.adj i
  if neigh.length = 0 then (strat, s1)
  else
    let jidx := (rngInt s1 neigh.length).1
    let s2 := (rngInt s1 neigh.length).2
    match neigh.get? jidx with
    | none => (strat, (rngRandom s2).2)
    | some j =>
      let pAdopt := 1 / (1 + fexp (-beta * (pay.getD j 0 - pay.getD i 0)))
      let r := (rngRandom s2).1
      let s3 := (rngRandom s2).2
      if r < pAdopt then
        let cs :=
          if 0 < mu then
            ((if (rngRandom s3).1 < mu then 1 - strat.getD j 0 else strat.getD j 0),
             (rngRandom s3).2)
          else (strat.getD j 0, s3)
        (strat.set i cs.1, cs.2)
      else (strat, s3)

/-- `isFixated(strat)` of `evo.js`: every entry equals the first. -/
def isFixated (strat : List Nat) : Bool :=
  strat.all fun x => x = strat.getD 0 0

/-!
Bit-level algebra of the xorshift rounds.  Everything is proved from
`testBit` extensionality; the goal is the injectivity of `nextU32` on the
32-bit state space, which the trial-stream claim C5 rests on.
-/

lemma u32size_eq : u32size = 2 ^ 32 := by norm_num [u32size]

lemma shiftLeft_xor_distrib (a b k : Nat) :
    (a ^^^ b) <<< k = (a <<< k) ^^^ (b <<< k) := by
  apply Nat.eq_of_testBit_eq
  intro i
  simp only [Nat.testBit_shiftLeft, Nat.testBit_xor]
  cases Decidable.em (i ≥ k) with
  | inl h => simp [h]
  | inr h => simp [h]

lemma shiftRight_xor_distrib (a b k : Nat) :
    (a ^^^ b) >>> k = (a >>> k) ^^^ (b >>> k) := by
  apply Nat.eq_of_testBit_eq
  intro i
  simp [Nat.testBit_shiftRight, Nat.testBit_xor]

lemma xor_mod_two_pow (a b n : Nat) :
    (a ^^^ b) % 2 ^ n = (a % 2 ^ n) ^^^ (b % 2 ^ n) := by
  apply Nat.eq_of_testBit_eq
  intro i
  simp only [Nat.testBit_mod_two_pow, Nat.testBit_xor]
  cases Decidable.em (i < n) with
  | inl h => simp [h]
  | inr h => simp [h]

lemma shiftLeft_mod_shiftLeft (a k1 k2 n : Nat) :
    ((((a <<< k1) % 2 ^ n) <<< k2) % 2 ^ n) = (a <<< (k1 + k2)) % 2 ^ n := by
  simp only [Nat.shiftLeft_eq, Nat.pow_add]
  rw [Nat.mod_mul_mod, Nat.mul_assoc]

lemma shiftLeft_mod_eq_zero (a k n : Nat) (h : n ≤ k) : (a <<< k) % 2 ^ n = 0 := by
  rw [Nat.shiftLeft_eq]
  have hk : a * 2 ^ k = a * 2 ^ (k - n) * 2 ^ n := by
    rw [Nat.mul_assoc, ← Nat.pow_add, Nat.sub_add_cancel h]
  rw [hk, Nat.mul_mod_left]

lemma xor_xor_cancel (a b c : Nat) : (a ^^^ b) ^^^ (b ^^^ c) = a ^^^ c := by
  rw [Nat.xor_assoc, ← Nat.xor_assoc b b c, Nat.xor_self, Nat.zero_xor]

/-- Composing one left xorshift round with itself doubles the shift. -/
lemma xsl_xsl (k x : Nat) : xsl k (xsl k x) = xsl (k + k) x := by
  unfold xsl
  rw [u32size_eq]
  rw [shiftLeft_xor_distrib, xor_mod_two_pow, shiftLeft_mod_shiftLeft]
  exact xor_xor_cancel x ((x <<< k) % 2 ^ 32) ((x <<< (k + k)) % 2 ^ 32)

/-- A left round whose shift reaches 32 bits is the identity. -/
lemma xsl_large (k x : Nat) (h : 32 ≤ k) : xsl k x = x := by
  unfold xsl
  rw [u32size_eq, shiftLeft_mod_eq_zero x k 32 h, Nat.xor_zero]

/-- Four rounds of the 13-bit left xorshift are the identity. -/
lemma xsl13_four (x : Nat) : xsl 13 (xsl 13 (xsl 13 (xsl 13 x))) = x := by
  rw [xsl_xsl, xsl_xsl, xsl_xsl]
  exact xsl_large 52 x (by norm_num)

/-- Eight rounds of the 5-bit left xorshift are the identity. -/
lemma xsl5_eight (x : Nat) :
    xsl 5 (xsl 5 (xsl 5 (xsl 5 (xsl 5 (xsl 5 (xsl 5 (xsl 5 x))))))) = x := by
  rw [xsl_xsl, xsl_xsl, xsl_xsl, xsl_xsl, xsl_xsl, xsl_xsl, xsl_xsl]
  exact xsl_large 40 x (by norm_num)

/-- The right xorshift round is an involution on 32-bit values. -/
lemma xsr_xsr (x : Nat) (h : x < 2 ^ 32) : xsr (xsr x) = x := by
  unfold xsr
  rw [shiftRight_xor_distrib]
  have h34 : (x >>> 17) >>> 17 = x >>> 34 := by
    simp [Nat.shiftRight_eq_div_pow, Nat.div_div_eq_div_mul]
  have hz : x >>> 34 = 0 := by
    rw [Nat.shiftRight_eq_div_pow]
    exact Nat.div_eq_of_lt (lt_of_lt_of_le h (by norm_num))
  rw [h34, xor_xor_cancel, hz, Nat.xor_zero]

lemma xsl_lt (k x : Nat) (h : x < 2 ^ 32) : xsl k x < 2 ^ 32 := by
  unfold xsl
  rw [u32size_eq]
  exact Nat.xor_lt_two_pow h (Nat.mod_lt _ (by norm_num))

/-- `nextU32` is injective on 32-bit states: the three rounds compose to a
bijection of the state space.  This is what makes distinct trial seeds give
distinct xorshift streams. -/
lemma nextU32_inj (x y : Nat) (hx : x < 2 ^ 32) (hy : y < 2 ^ 32)
    (h : nextU32 x = nextU32 y) : x = y := by
  unfold nextU32 at h
  have h1 : xsr (xsl 13 x) = xsr (xsl 13 y) := by
    have := congrArg
      (fun z => xsl 5 (xsl 5 (xsl 5 (xsl 5 (xsl 5 (xsl 5 (xsl 5 z))))))) h
    simpa [xsl5_eight] using this
  have h2 : xsl 13 x = xsl 13 y := by
    have := congrArg xsr h1
    rwa [xsr_xsr _ (xsl_lt 13 x hx), xsr_xsr _ (xsl_lt 13 y hy)] at this
  have h3 := congrArg (fun z => xsl 13 (xsl 13 (xsl 13 z))) h2
  simpa [xsl13_four] using h3

lemma mkState_lt (seed : Nat) : mkState seed < 2 ^ 32 := by
  unfold mkState
  rw [← u32size_eq]
  split
  · norm_num [u32size]
  · exact Nat.mod_lt _ (by norm_num [u32size])

/-- C5 counterexample.  The fixation driver seeds trial `tr` with
`baseSeed + 1000 + tr`, but the `RNG` constructor truncates the seed with
`>>> 0`; trial indices `2 ^ 32` apart (here 0 and `2 ^ 32` with base seed 0)
construct identical states, so the two trials replay the identical output
stream — the claim's universal distinctness is false. -/
theorem fixation_trial_streams_coincide :
    (0 : Nat) ≠ 4294967296 ∧
      rngStream (mkState (0 + 1000 + 0)) = rngStream (mkState (0 + 1000 + 4294967296)) :=
  ⟨by decide, congrArg rngStream (by decide)⟩

/-- C5 amended: two fixation trials' PRNG streams are distinct whenever the
constructor-normalised states `mkState (baseSeed + 1000 + t)` differ (in
particular for distinct trial indices below `2 ^ 32` that do not collide
through the truncation or the `|| 1` zero-replacement); already their first
outputs differ, because `nextU32` is injective on 32-bit states. -/
theorem fixation_trial_streams_distinct (baseSeed t1 t2 : Nat)
    (h : mkState (baseSeed + 1000 + t1) ≠ mkState (baseSeed + 1000 + t2)) :
    rngStream (mkState (baseSeed + 1000 + t1)) 0 ≠
      rngStream (mkState (baseSeed + 1000 + t2)) 0 := by
  intro heq
  exact h (nextU32_inj _ _ (mkState_lt _) (mkState_lt _) heq)

/-- Witness for the amended C5 at base seed 1, trials 0 and 1. -/
theorem fixation_trial_streams_distinct_witness :
    mkState (1 + 1000 + 0) ≠ mkState (1 + 1000 + 1) ∧
      rngStream (mkState (1 + 1000 + 0)) 0 ≠ rngStream (mkState (1 + 1000 + 1)) 0 :=
  ⟨by decide, fixation_trial_streams_distinct 1 0 1 (by decide)⟩

/-- C1: the RNG state 1584200935 (reachable directly from the constructor
with that seed) sends `random()` to exactly `0xFFFFFFFF / 0xFFFFFFFF = 1`,
and `int(10)` to `10 = maxExclusive` — `random()` is not confined to
`[0, 1)` nor `int(b)` to `[0, b)`, because `nextU32` is divided by
`2 ^ 32 - 1` instead of `2 ^ 32`. -/
theorem rng_random_reaches_one :
    mkState 1584200935 = 1584200935 ∧
      (rngRandom 1584200935).1 = 1 ∧ (rngInt 1584200935 10).1 = 10 := by
  have hnx : nextU32 1584200935 = 4294967295 := by decide
  refine ⟨by decide, ?_, ?_⟩
  · simp [rngRandom, hnx]
  · simp [rngInt, jsFloor, rngRandom, hnx]

/-- C4: with `p = 1` and seed 1584200935 the very first pair draw returns
exactly 1, the strict test `random() < 1` fails, and the unique candidate
edge of the 2-node graph is dropped: the result is not the complete graph. -/
theorem erdos_renyi_p_one_misses_edge :
    edgeCount (makeErdosRenyi 2 1 (mkState 1584200935)).1 = 0 ∧
      (0 : Nat) ≠ 2 * (2 - 1) / 2 := by
  have hmk : mkState 1584200935 = 1584200935 := by decide
  have hnx : nextU32 1584200935 = 4294967295 := by decide
  have hlt : ¬ ((rngRandom 1584200935).1 < 1) := by simp [rngRandom, hnx]
  refine ⟨?_, by decide⟩
  have hr : List.range 2 = [0, 1] := by decide
  have hr1 : List.range' 1 1 = [1] := by decide
  have hr2 : List.range' 2 0 = [] := by decide
  simp [makeErdosRenyi, hmk, hr, hr1, hr2, List.foldl, erInner, hlt,
    edgeCount, degree, newGraph]

/-- C10: at RNG state 1584200935, the node draw `rng.int(N)` of `stepDB`
returns `N` itself (here `N = 3`), outside the valid index range — the
in-bounds claim fails (in the JS source this reads `g.adj[N] = undefined`
and throws). -/
theorem rng_int_overshoots_range :
    dbDead (ringG 3 2) (mkState 1584200935) = 3 ∧
      ¬ dbDead (ringG 3 2) (mkState 1584200935) < (ringG 3 2).N := by
  have hmk : mkState 1584200935 = 1584200935 := by decide
  have hnx : nextU32 1584200935 = 4294967295 := by decide
  have hN : (ringG 3 2).N = 3 := by decide
  have hd : dbDead (ringG 3 2) (mkState 1584200935) = 3 := by
    simp [dbDead, hN, hmk, rngInt, jsFloor, rngRandom, hnx]
  exact ⟨hd, by rw [hd, hN]; decide⟩

/-- C6: a fixated all-cooperator population on the 2-ring, with `mu = 0`,
matrix `R = -1` and intensity `w = 1`, is destroyed by one `stepDB` call
from seed 3764646662: all neighbour fitnesses clamp to 0, the uniform
fallback draw lands on the bad RNG state and overshoots the neighbour list,
the source reads `neigh[1] = undefined` and `strat[undefined] = undefined`,
and storing it writes 0 into the dead node — the population leaves fixation
without any mutation. -/
theorem stepDB_breaks_fixation :
    stepDB (ringG 2 2) [1, 1] ⟨-1, 0, 0, 0⟩ 1 0 (mkState 3764646662) =
      ([0, 1], 4294967295) := by
  rw [show mkState 3764646662 = 3764646662 from by decide]
  have h1 : nextU32 3764646662 = 1584200935 := by decide
  have h2 : nextU32 1584200935 = 4294967295 := by decide
  have hN : (ringG 2 2).N = 2 := by decide
  have hadj0 : (ringG 2 2).adj 0 = [1] := by decide
  have hadj1 : (ringG 2 2).adj 1 = [0] := by decide
  have hdead : dbDead (ringG 2 2) 3764646662 = 0 := by
    simp only [dbDead, hN, rngInt, jsFloor, rngRandom, h1]
    rw [Int.toNat_eq_zero, Int.floor_le_iff]
    norm_num
  have hr : List.range 2 = [0, 1] := by decide
  have hmax : max (0 : ℚ) (-1) = 0 := max_eq_left (by norm_num)
  simp [stepDB, hdead, hN, hadj0, hadj1, hr, rngInt, jsFloor, rngRandom,
    h1, h2, computePayoffs, payRow, payoffEntry, fitnessOf, pickWeightedIndex,
    List.foldl, hmax]

/-!
Structural lemmas about `addEdge`: membership characterisation and the
symmetric / irreflexive / duplicate-free invariant every generator
maintains (claim C8), which the degree counts of C2 and C3 also rest on.
-/

lemma mem_pushNb {l : List Nat} {x w : Nat} : w ∈ pushNb l x ↔ w ∈ l ∨ w = x := by
  unfold pushNb
  split
  · rename_i h
    constructor
    · exact Or.inl
    · rintro (hw | rfl)
      · exact hw
      · exact h
  · simp [List.mem_append]

lemma nodup_pushNb {l : List Nat} (x : Nat) (h : l.Nodup) : (pushNb l x).Nodup := by
  unfold pushNb
  split
  · exact h
  · rename_i hx
    simp [List.nodup_append, h, hx]

lemma addEdge_N (g : Graph) (u v : Nat) : (addEdge g u v).N = g.N := by
  unfold addEdge
  split <;> rfl

lemma addEdges_N (ps : List (Nat × Nat)) : ∀ g : Graph, (addEdges g ps).N = g.N := by
  induction ps with
  | nil => intro g; rfl
  | cons p ps ih =>
    intro g
    show (addEdges (addEdge g p.1 p.2) ps).N = g.N
    rw [ih, addEdge_N]

/-- The candidate pair `p` contributes the entry `w` to adjacency list `i`:
it is not a self-loop and covers `(i, w)` in one of the two directions. -/
def pairHits (i w : Nat) (p : Nat × Nat) : Prop :=
  p.1 ≠ p.2 ∧ ((i = p.1 ∧ w = p.2) ∨ (i = p.2 ∧ w = p.1))

lemma mem_addEdge {g : Graph} {u v i w : Nat} :
    w ∈ (addEdge g u v).adj i ↔ w ∈ g.adj i ∨ pairHits i w (u, v) := by
  unfold addEdge pairHits
  by_cases huv : u = v
  · simp [huv]
  · by_cases hiu : i = u
    · subst hiu
      simp only [if_neg huv, if_true, eq_self_iff_true, mem_pushNb, true_and]
      constructor
      · rintro (hw | rfl)
        · exact Or.inl hw
        · exact Or.inr ⟨huv, Or.inl rfl⟩
      · rintro (hw | ⟨-, rfl | ⟨rfl, rfl⟩⟩)
        · exact Or.inl hw
        · exact Or.inr rfl
        · exact (huv rfl).elim
    · by_cases hiv : i = v
      · subst hiv
        simp only [if_neg huv, if_neg hiu, if_true, eq_self_iff_true, mem_pushNb,
          true_and]
        constructor
        · rintro (hw | rfl)
          · exact Or.inl hw
          · exact Or.inr ⟨huv, Or.inr rfl⟩
        · rintro (hw | ⟨-, ⟨rfl, rfl⟩ | rfl⟩)
          · exact Or.inl hw
          · exact (hiu rfl).elim
          · exact Or.inr rfl
      · simp only [if_neg huv, if_neg hiu, if_neg hiv]
        constructor
        · exact Or.inl
        · rintro (hw | ⟨-, ⟨rfl, -⟩ | ⟨rfl, -⟩⟩)
          · exact hw
          · exact (hiu rfl).elim
          · exact (hiv rfl).elim

lemma mem_addEdges {i w : Nat} (ps : List (Nat × Nat)) : ∀ g : Graph,
    (w ∈ (addEdges g ps).adj i ↔ w ∈ g.adj i ∨ ∃ p ∈ ps, pairHits i w p) := by
  induction ps with
  | nil => intro g; simp [addEdges]
  | cons p ps ih =>
    intro g
    show w ∈ (addEdges (addEdge g p.1 p.2) ps).adj i ↔ _
    rw [ih, mem_addEdge]
    rw [List.exists_mem_cons_iff, or_assoc]

/-- The invariant of claim C8: symmetric adjacency, no self-loops, no
duplicate neighbour entries. -/
def GraphInv (g : Graph) : Prop :=
  (∀ i j, j ∈ g.adj i → i ∈ g.adj j) ∧ (∀ i, i ∉ g.adj i) ∧ ∀ i, (g.adj i).Nodup

lemma newGraph_inv (N : Nat) : GraphInv (newGraph N) := by
  refine ⟨?_, ?_, ?_⟩ <;> simp [newGraph]

lemma addEdge_inv {g : Graph} (u v : Nat) (h : GraphInv g) : GraphInv (addEdge g u v) := by
  obtain ⟨hsym, hirr, hnd⟩ := h
  refine ⟨?_, ?_, ?_⟩
  · intro i j hj
    rw [mem_addEdge] at hj ⊢
    simp only [pairHits] at hj ⊢
    rcases hj with hj | ⟨huv, ⟨rfl, rfl⟩ | ⟨rfl, rfl⟩⟩
    · exact Or.inl (hsym i j hj)
    · exact Or.inr ⟨huv, Or.inr ⟨rfl, rfl⟩⟩
    · exact Or.inr ⟨huv, Or.inl ⟨rfl, rfl⟩⟩
  · intro i hi
    rw [mem_addEdge] at hi
    simp only [pairHits] at hi
    rcases hi with hi | ⟨huv, ⟨rfl, rfl⟩ | ⟨rfl, rfl⟩⟩
    · exact hirr i hi
    · exact huv rfl
    · exact huv rfl
  · intro i
    unfold addEdge
    split
    · exact hnd i
    · dsimp only
      by_cases hiu : i = u
      · simp only [if_pos hiu]
        exact nodup_pushNb v (hnd u)
      · by_cases hiv : i = v
        · simp only [if_neg hiu, if_pos hiv]
          exact nodup_pushNb u (hnd v)
        · simp only [if_neg hiu, if_neg hiv]
          exact hnd i

lemma addEdges_inv (ps : List (Nat × Nat)) :
    ∀ g : Graph, GraphInv g → GraphInv (addEdges g ps) := by
  induction ps with
  | nil => intro g h; exact h
  | cons p ps ih =>
    intro g h
    exact ih (addEdge g p.1 p.2) (addEdge_inv p.1 p.2 h)

lemma erInner_inv {p : ℚ} {i : Nat} {gs : Graph × Nat} (j : Nat)
    (h : GraphInv gs.1) : GraphInv (erInner p i gs j).1 := by
  unfold erInner
  split
  · exact addEdge_inv i j h
  · exact h

lemma er_fold_inner {p : ℚ} {i : Nat} (l : List Nat) :
    ∀ gs : Graph × Nat, GraphInv gs.1 → GraphInv (l.foldl (erInner p i) gs).1 := by
  induction l with
  | nil => intro gs h; exact h
  | cons j l ih => intro gs h; exact ih _ (erInner_inv j h)

lemma er_fold_outer {N : Nat} {p : ℚ} (l : List Nat) :
    ∀ gs : Graph × Nat, GraphInv gs.1 →
      GraphInv
        ((l.foldl
          (fun gs i => (List.range' (i + 1) (N - (i + 1))).foldl (erInner p i) gs)
          gs)).1 := by
  induction l with
  | nil => intro gs h; exact h
  | cons i l ih => intro gs h; exact ih _ (er_fold_inner _ gs h)

lemma makeErdosRenyi_inv (N : Nat) (p : ℚ) (s : Nat) :
    GraphInv (makeErdosRenyi N p s).1 := by
  unfold makeErdosRenyi
  exact er_fold_outer (List.range N) (newGraph N, s) (newGraph_inv N)

lemma foldl_addEdge_inv (targets : List Nat) (v : Nat) :
    ∀ g : Graph, GraphInv g → GraphInv (targets.foldl (fun h u => addEdge h v u) g) := by
  induction targets with
  | nil => intro g h; exact h
  | cons u l ih => intro g h; exact ih _ (addEdge_inv v u h)

lemma baLoop_inv {m fuel : Nat} (vs : List Nat) :
    ∀ (g : Graph) (pool : List Nat) (s : Nat) (gout : Graph), GraphInv g →
      baLoop m fuel vs g pool s = Except.ok gout → GraphInv gout := by
  induction vs with
  | nil =>
    intro g pool s gout h hok
    unfold baLoop at hok
    cases hok
    exact h
  | cons v vs ih =>
    intro g pool s gout h hok
    unfold baLoop at hok
    cases hpt : pickTargets pool m fuel [] s with
    | error e => rw [hpt] at hok; cases hok
    | ok ts =>
      rw [hpt] at hok
      exact ih _ _ _ _ (foldl_addEdge_inv ts.1 v g h) hok

lemma makeBA_inv (N m0 m s fuel : Nat) (gout : Graph)
    (hok : makeBA N m0 m s fuel = Except.ok gout) : GraphInv gout := by
  unfold makeBA at hok
  split at hok
  · cases hok
  · split at hok
    · cases hok
    · split at hok
      · cases hok
      · exact baLoop_inv _ _ _ _ _
          (addEdges_inv (cliquePairs m0) (newGraph N) (newGraph_inv N)) hok

lemma graphInv_claim {g : Graph} (h : GraphInv g) :
    (∀ i j, j ∈ g.adj i ↔ i ∈ g.adj j) ∧ (∀ i, i ∉ g.adj i) ∧ ∀ i, (g.adj i).Nodup :=
  ⟨fun i j => ⟨fun hj => h.1 i j hj, fun hj => h.1 j i hj⟩, h.2.1, h.2.2⟩

/-- C8: every graph any of the four generators returns has symmetric
adjacency, no self-loops, and no duplicate entries in any adjacency list —
for every parameter choice and every seed, because `addEdge` (the only way
edges enter) preserves all three properties. -/
theorem generators_invariant :
    (∀ N k g, makeRing N k = Except.ok g →
      (∀ i j, j ∈ g.adj i ↔ i ∈ g.adj j) ∧ (∀ i, i ∉ g.adj i) ∧ ∀ i, (g.adj i).Nodup) ∧
    (∀ N g, makeLattice N = Except.ok g →
      (∀ i j, j ∈ g.adj i ↔ i ∈ g.adj j) ∧ (∀ i, i ∉ g.adj i) ∧ ∀ i, (g.adj i).Nodup) ∧
    (∀ (N : Nat) (p : ℚ) (s : Nat),
      (∀ i j, j ∈ (makeErdosRenyi N p s).1.adj i ↔ i ∈ (makeErdosRenyi N p s).1.adj j) ∧
        (∀ i, i ∉ (makeErdosRenyi N p s).1.adj i) ∧
        ∀ i, ((makeErdosRenyi N p s).1.adj i).Nodup) ∧
    ∀ N m0 m s fuel g, makeBA N m0 m s fuel = Except.ok g →
      (∀ i j, j ∈ g.adj i ↔ i ∈ g.adj j) ∧ (∀ i, i ∉ g.adj i) ∧ ∀ i, (g.adj i).Nodup := by
  refine ⟨?_, ?_, ?_, ?_⟩
  · intro N k g hok
    unfold makeRing at hok
    split at hok
    · cases hok
    · split at hok
      · cases hok
      · cases hok
        exact graphInv_claim (addEdges_inv _ _ (newGraph_inv N))
  · intro N g hok
    unfold makeLattice at hok
    split at hok
    · cases hok
    · cases hok
      exact graphInv_claim (addEdges_inv _ _ (newGraph_inv N))
  · intro N p s
    exact graphInv_claim (makeErdosRenyi_inv N p s)
  · intro N m0 m s fuel g hok
    exact graphInv_claim (makeBA_inv N m0 m s fuel g hok)

/-- Witness for C8 at the ring generator, `N = 3`, `k = 2`. -/
theorem generators_invariant_witness :
    makeRing 3 2 = Except.ok (ringG 3 2) ∧
      (1 ∈ (ringG 3 2).adj 0 ↔ 0 ∈ (ringG 3 2).adj 1) ∧
      0 ∉ (ringG 3 2).adj 0 ∧ ((ringG 3 2).adj 0).Nodup :=
  ⟨rfl,
   (generators_invariant.1 3 2 (ringG 3 2) rfl).1 0 1,
   (generators_invariant.1 3 2 (ringG 3 2) rfl).2.1 0,
   (generators_invariant.1 3 2 (ringG 3 2) rfl).2.2 0⟩

/-!
Degree of the ring generator.  The adjacency list of node `i` is shown to
enumerate exactly the set `ringNbrs` of offsets `±1 .. ±(k / 2)` modulo `N`,
which has exactly `k` elements once `k < N`.
-/

/-- The intended neighbour set of node `i` in the `(N, k)` ring. -/
def ringNbrs (N k i : Nat) : Finset Nat :=
  ((Finset.Icc 1 (k / 2)).image fun d => (i + d) % N) ∪
    ((Finset.Icc 1 (k / 2)).image fun d => (i + (N - d)) % N)

lemma mod_round_trip (N a d : Nat) (ha : a < N) (hd : d ≤ N) :
    ((a + d) % N + (N - d)) % N = a := by
  rw [Nat.mod_add_mod]
  have he : a + d + (N - d) = a + N := by omega
  rw [he, Nat.add_mod_right, Nat.mod_eq_of_lt ha]

lemma mod_round_trip2 (N a d : Nat) (ha : a < N) (hd : d ≤ N) :
    ((a + (N - d)) % N + d) % N = a := by
  rw [Nat.mod_add_mod]
  have he : a + (N - d) + d = a + N := by omega
  rw [he, Nat.add_mod_right, Nat.mod_eq_of_lt ha]

lemma add_mod_inj {N i a b : Nat} (ha : a < N) (hb : b < N)
    (h : (i + a) % N = (i + b) % N) : a = b := by
  have hm : a ≡ b [MOD N] := Nat.ModEq.add_left_cancel' i h
  have := hm.eq_of_lt_of_lt ha hb
  exact this

lemma ne_self_mod {N i d : Nat} (hi : i < N) (hd1 : 1 ≤ d) (hdN : d < N) :
    i ≠ (i + d) % N := by
  intro h
  have hm : i + 0 ≡ i + d [MOD N] := by
    unfold Nat.ModEq
    rw [Nat.add_zero, Nat.mod_eq_of_lt hi]
    exact h
  have hd0 : (0 : Nat) ≡ d [MOD N] := Nat.ModEq.add_left_cancel' i hm
  have h2 : 0 % N = d % N := hd0
  rw [Nat.zero_mod, Nat.mod_eq_of_lt hdN] at h2
  omega

lemma mem_ringG {N k i w : Nat} (hk2 : k / 2 < N) (hi : i < N) :
    w ∈ (ringG N k).adj i ↔ w ∈ ringNbrs N k i := by
  unfold ringG
  rw [mem_addEdges]
  simp only [newGraph, List.not_mem_nil, false_or]
  constructor
  · rintro ⟨p, hp, hne, hcase⟩
    simp only [ringPairs, List.mem_flatMap, List.mem_range, List.mem_cons,
      List.mem_singleton, List.not_mem_nil, or_false] at hp
    obtain ⟨a, ha, d0, hd0, hpe⟩ := hp
    have hd1 : 1 ≤ d0 + 1 := by omega
    have hdk : d0 + 1 ≤ k / 2 := by omega
    have hdN : d0 + 1 ≤ N := by omega
    rcases hpe with rfl | rfl
    · rcases hcase with ⟨hia, hwj⟩ | ⟨hij, hwa⟩
      · subst hia
        subst hwj
        apply Finset.mem_union_left
        exact Finset.mem_image.mpr ⟨d0 + 1, Finset.mem_Icc.mpr ⟨hd1, hdk⟩, rfl⟩
      · subst hwa
        apply Finset.mem_union_right
        refine Finset.mem_image.mpr ⟨d0 + 1, Finset.mem_Icc.mpr ⟨hd1, hdk⟩, ?_⟩
        rw [hij]
        exact mod_round_trip N w (d0 + 1) ha hdN
    · rcases hcase with ⟨hia, hwj⟩ | ⟨hij, hwa⟩
      · subst hia
        subst hwj
        apply Finset.mem_union_right
        refine Finset.mem_image.mpr ⟨d0 + 1, Finset.mem_Icc.mpr ⟨hd1, hdk⟩, ?_⟩
        congr 1
        omega
      · subst hwa
        apply Finset.mem_union_left
        refine Finset.mem_image.mpr ⟨d0 + 1, Finset.mem_Icc.mpr ⟨hd1, hdk⟩, ?_⟩
        rw [hij]
        have he : w + N - (d0 + 1) = w + (N - (d0 + 1)) := by omega
        rw [he]
        exact mod_round_trip2 N w (d0 + 1) ha hdN
  · intro hw
    rcases Finset.mem_union.mp hw with hw1 | hw2
    · obtain ⟨d, hd, rfl⟩ := Finset.mem_image.mp hw1
      obtain ⟨hd1, hdk⟩ := Finset.mem_Icc.mp hd
      refine ⟨(i, (i + d) % N), ?_, ?_, Or.inl ⟨rfl, rfl⟩⟩
      · simp only [ringPairs, List.mem_flatMap, List.mem_range, List.mem_cons,
          List.mem_singleton, List.not_mem_nil, or_false]
        refine ⟨i, hi, d - 1, by omega, Or.inl ?_⟩
        have he : d - 1 + 1 = d := by omega
        rw [he]
      · exact ne_self_mod hi hd1 (by omega)
    · obtain ⟨d, hd, rfl⟩ := Finset.mem_image.mp hw2
      obtain ⟨hd1, hdk⟩ := Finset.mem_Icc.mp hd
      refine ⟨(i, (i + N - d) % N), ?_, ?_, ?_⟩
      · simp only [ringPairs, List.mem_flatMap, List.mem_range, List.mem_cons,
          List.mem_singleton, List.not_mem_nil, or_false]
        refine ⟨i, hi, d - 1, by omega, Or.inr ?_⟩
        have he : d - 1 + 1 = d := by omega
        rw [he]
      · have he : i + N - d = i + (N - d) := by omega
        rw [he]
        exact ne_self_mod hi (by omega) (by omega)
      · refine Or.inl ⟨rfl, ?_⟩
        congr 1
        omega

lemma card_ringNbrs {N k i : Nat} (hk : k % 2 = 0) (hkN : k < N) (hi : i < N) :
    (ringNbrs N k i).card = k := by
  unfold ringNbrs
  have hinj1 : Set.InjOn (fun d => (i + d) % N) (Finset.Icc 1 (k / 2)) := by
    intro a ha b hb hab
    simp only [Finset.coe_Icc, Set.mem_Icc] at ha hb
    exact add_mod_inj (by omega) (by omega) hab
  have hinj2 : Set.InjOn (fun d => (i + (N - d)) % N) (Finset.Icc 1 (k / 2)) := by
    intro a ha b hb hab
    simp only [Finset.coe_Icc, Set.mem_Icc] at ha hb
    have := add_mod_inj (N := N) (i := i) (by omega) (by omega) hab
    omega
  have hdisj :
      Disjoint ((Finset.Icc 1 (k / 2)).image fun d => (i + d) % N)
        ((Finset.Icc 1 (k / 2)).image fun d => (i + (N - d)) % N) := by
    rw [Finset.disjoint_left]
    intro w hw1 hw2
    obtain ⟨a, ha, hwa⟩ := Finset.mem_image.mp hw1
    obtain ⟨b, hb, hwb⟩ := Finset.mem_image.mp hw2
    obtain ⟨ha1, hak⟩ := Finset.mem_Icc.mp ha
    obtain ⟨hb1, hbk⟩ := Finset.mem_Icc.mp hb
    have heq : a = N - b :=
      add_mod_inj (by omega) (by omega) (hwa.trans hwb.symm)
    omega
  rw [Finset.card_union_of_disjoint hdisj,
    Finset.card_image_of_injOn hinj1, Finset.card_image_of_injOn hinj2,
    Nat.card_Icc]
  omega

lemma degree_eq_card {g : Graph} {i : Nat} {S : Finset Nat}
    (hnd : (g.adj i).Nodup) (hmem : ∀ w, w ∈ g.adj i ↔ w ∈ S) :
    degree g i = S.card := by
  have hset : (g.adj i).toFinset = S := by
    apply Finset.ext
    intro w
    rw [List.mem_toFinset]
    exact hmem w
  rw [degree, ← List.toFinset_card_of_nodup hnd, hset]

lemma ringG_degree {N k i : Nat} (hk : k % 2 = 0) (hkN : k < N) (hi : i < N) :
    degree (ringG N k) i = k := by
  have hinv := addEdges_inv (ringPairs N k) (newGraph N) (newGraph_inv N)
  have hk2 : k / 2 < N := by omega
  have hnd : ((ringG N k).adj i).Nodup := hinv.2.2 i
  exact (degree_eq_card hnd fun w => mem_ringG hk2 hi).trans
    (card_ringNbrs hk hkN hi)

lemma sum_const_degrees {g : Graph} {k : Nat} (h : ∀ i, i < g.N → degree g i = k) :
    ((List.range g.N).map fun i => degree g i).sum = g.N * k := by
  have hmap : ((List.range g.N).map fun i => degree g i) =
      (List.range g.N).map fun _ => k := by
    apply List.map_congr_left
    intro a ha
    exact h a (List.mem_range.mp ha)
  rw [hmap, List.map_const', List.sum_replicate, List.length_range, smul_eq_mul]

lemma ringG_N (N k : Nat) : (ringG N k).N = N := by
  unfold ringG
  rw [addEdges_N]
  rfl

/-- C3 counterexample.  `makeRing(4, 4)` raises no error, but node 0 gets
only the three distinct neighbours `1, 3, 2` (the offsets `+2` and `-2`
coincide mod 4), so the degree is 3, not `k = 4`, and the edge count is 6,
not `N * k / 2 = 8`. -/
theorem ring_claim_counterexample :
    makeRing 4 4 = Except.ok (ringG 4 4) ∧
      degree (ringG 4 4) 0 = 3 ∧ ¬ degree (ringG 4 4) 0 = 4 ∧
      edgeCount (ringG 4 4) = 6 :=
  ⟨rfl, by decide, by decide, by decide⟩

/-- C3 amended: `makeRing` raises its invalid-parameter error exactly for
odd `k` (for even `k` with `k / 2 > N ≥ 2` the source instead dies with a
`TypeError`, and at `N ≤ 1` it returns the empty graph); and for even `k`
with `2 ≤ k < N` — the extra bound `k < N` is what the counterexample
`N = k = 4` forces — every node has degree exactly `k` and the edge count
is `N * k / 2`. -/
theorem ring_claim_amended :
    (∀ N k : Nat, makeRing N k = Except.error "Ring degree k must be even." ↔ k % 2 = 1) ∧
    ∀ N k : Nat, k % 2 = 0 → 2 ≤ k → k < N →
      makeRing N k = Except.ok (ringG N k) ∧
        (∀ i, i < N → degree (ringG N k) i = k) ∧
        edgeCount (ringG N k) = N * k / 2 := by
  constructor
  · intro N k
    unfold makeRing
    split
    · rename_i hodd
      constructor
      · intro
        omega
      · intro
        rfl
    · rename_i heven
      have h0 : k % 2 = 0 := Decidable.not_not.mp heven
      split
      · constructor
        · intro hstr
          exact absurd (Except.error.inj hstr) (by decide)
        · intro hk1
          omega
      · constructor
        · intro hok
          cases hok
        · intro hk1
          omega
  · intro N k hk h2 hkN
    have hok : makeRing N k = Except.ok (ringG N k) := by
      unfold makeRing
      have h1 : ¬ k % 2 ≠ 0 := by omega
      have h3 : ¬ (1 < N ∧ N < k / 2) := by omega
      rw [if_neg h1, if_neg h3]
    refine ⟨hok, fun i hi => ringG_degree hk hkN hi, ?_⟩
    unfold edgeCount
    have hdeg : ∀ i, i < (ringG N k).N → degree (ringG N k) i = k := by
      rw [ringG_N]
      intro i hi
      exact ringG_degree hk hkN hi
    rw [sum_const_degrees hdeg, ringG_N]

/-- Witness for the amended C3 at `N = 10`, `k = 4` (the spec's own
example: degree 4 everywhere, 20 edges). -/
theorem ring_claim_amended_witness :
    (4 % 2 = 0 ∧ 2 ≤ 4 ∧ 4 < 10) ∧
      makeRing 10 4 = Except.ok (ringG 10 4) ∧
      degree (ringG 10 4) 0 = 4 ∧ edgeCount (ringG 10 4) = 20 :=
  ⟨⟨by decide, by decide, by decide⟩,
   (ring_claim_amended.2 10 4 (by decide) (by decide) (by decide)).1,
   (ring_claim_amended.2 10 4 (by decide) (by decide) (by decide)).2.1 0 (by decide),
   (ring_claim_amended.2 10 4 (by decide) (by decide) (by decide)).2.2⟩

/-!
Degree of the lattice generator.  A node `i < L * L` sits at column
`i % L`, row `i / L`; its adjacency list enumerates the four wraparound
von Neumann neighbours, which are pairwise distinct once `L ≥ 3`.
-/

/-- The intended neighbour set of cell `i` on the `L × L` torus. -/
def latNbrs (L i : Nat) : Finset Nat :=
  {(i / L) * L + (i % L + 1) % L,
   (i / L) * L + (i % L + L - 1) % L,
   ((i / L + 1) % L) * L + i % L,
   ((i / L + L - 1) % L) * L + i % L}

lemma latIdx_mod (L a b : Nat) : latIdx L a b = (b % L) * L + a % L := by
  unfold latIdx
  rw [Nat.add_mod_right, Nat.add_mod_right]

lemma rowcol_mod {L y x : Nat} (hx : x < L) : (y * L + x) % L = x := by
  rw [Nat.mul_comm y L, Nat.mul_add_mod, Nat.mod_eq_of_lt hx]

lemma rowcol_div {L y x : Nat} (hx : x < L) : (y * L + x) / L = y := by
  rw [Nat.mul_comm, Nat.mul_add_div (by omega), Nat.div_eq_of_lt hx, Nat.add_zero]

lemma rowcol_inj {L y1 x1 y2 x2 : Nat} (hx1 : x1 < L) (hx2 : x2 < L)
    (h : y1 * L + x1 = y2 * L + x2) : y1 = y2 ∧ x1 = x2 := by
  constructor
  · have := congrArg (fun n => n / L) h
    simpa [rowcol_div hx1, rowcol_div hx2] using this
  · have := congrArg (fun n => n % L) h
    simpa [rowcol_mod hx1, rowcol_mod hx2] using this

lemma succ_pred_mod {L x : Nat} (hx : x < L) : ((x + 1) % L + L - 1) % L = x := by
  have h1 : (x + 1) % L + L - 1 = (x + 1) % L + (L - 1) := by omega
  rw [h1, Nat.mod_add_mod]
  have h2 : x + 1 + (L - 1) = x + L := by omega
  rw [h2, Nat.add_mod_right, Nat.mod_eq_of_lt hx]

lemma pred_succ_mod {L x : Nat} (hx : x < L) : ((x + L - 1) % L + 1) % L = x := by
  have h1 : x + L - 1 = x + (L - 1) := by omega
  rw [h1, Nat.mod_add_mod]
  have h2 : x + (L - 1) + 1 = x + L := by omega
  rw [h2, Nat.add_mod_right, Nat.mod_eq_of_lt hx]

lemma succ_mod_ne {L x : Nat} (hx : x < L) (hL : 2 ≤ L) : (x + 1) % L ≠ x := by
  rcases Nat.lt_or_ge (x + 1) L with h | h
  · rw [Nat.mod_eq_of_lt h]
    omega
  · have hxl : x + 1 = L := by omega
    rw [hxl, Nat.mod_self]
    omega

lemma pred_mod_ne {L x : Nat} (hx : x < L) (hL : 2 ≤ L) : (x + L - 1) % L ≠ x := by
  rcases Nat.eq_zero_or_pos x with rfl | hpos
  · have h1 : 0 + L - 1 = L - 1 := by omega
    rw [h1, Nat.mod_eq_of_lt (by omega)]
    omega
  · have h1 : x + L - 1 = (x - 1) + L := by omega
    rw [h1, Nat.add_mod_right, Nat.mod_eq_of_lt (by omega)]
    omega

lemma offset_mod_ne {L a b : Nat} (ha : a < L) (hb : b < L) (hab : a ≠ b)
    {i : Nat} : (i + a) % L ≠ (i + b) % L := by
  intro h
  exact hab (add_mod_inj ha hb h)

lemma mem_latticeAdj {L M i w : Nat} (hL : 3 ≤ L) (hi : i < L * L) :
    w ∈ (addEdges (newGraph M) (latticePairs L)).adj i ↔ w ∈ latNbrs L i := by
  have hL0 : 0 < L := by omega
  rw [mem_addEdges]
  simp only [newGraph, List.not_mem_nil, false_or]
  constructor
  · rintro ⟨p, hp, hne, hcase⟩
    simp only [latticePairs, List.mem_flatMap, List.mem_range, List.mem_cons,
      List.mem_singleton, List.not_mem_nil, or_false] at hp
    obtain ⟨y, hy, x, hx, hpe⟩ := hp
    have e0 : latIdx L x y = y * L + x := by
      rw [latIdx_mod, Nat.mod_eq_of_lt hx, Nat.mod_eq_of_lt hy]
    have e1 : latIdx L (x + 1) y = y * L + (x + 1) % L := by
      rw [latIdx_mod, Nat.mod_eq_of_lt hy]
    have e2 : latIdx L (x + L - 1) y = y * L + (x + L - 1) % L := by
      rw [latIdx_mod, Nat.mod_eq_of_lt hy]
    have e3 : latIdx L x (y + 1) = ((y + 1) % L) * L + x := by
      rw [latIdx_mod, Nat.mod_eq_of_lt hx]
    have e4 : latIdx L x (y + L - 1) = ((y + L - 1) % L) * L + x := by
      rw [latIdx_mod, Nat.mod_eq_of_lt hx]
    rw [e0, e1, e2, e3, e4] at hpe
    simp only [latNbrs, Finset.mem_insert, Finset.mem_singleton]
    rcases hpe with rfl | rfl | rfl | rfl <;>
      rcases hcase with ⟨hiu, hwv⟩ | ⟨hiv, hwu⟩
    · subst hiu
      rw [hwv, rowcol_div hx, rowcol_mod hx]
      exact Or.inl rfl
    · subst hiv
      rw [hwu, rowcol_div (Nat.mod_lt _ hL0), rowcol_mod (Nat.mod_lt _ hL0)]
      refine Or.inr (Or.inl ?_)
      rw [succ_pred_mod hx]
    · subst hiu
      rw [hwv, rowcol_div hx, rowcol_mod hx]
      exact Or.inr (Or.inl rfl)
    · subst hiv
      rw [hwu, rowcol_div (Nat.mod_lt _ hL0), rowcol_mod (Nat.mod_lt _ hL0)]
      refine Or.inl ?_
      rw [pred_succ_mod hx]
    · subst hiu
      rw [hwv, rowcol_div hx, rowcol_mod hx]
      exact Or.inr (Or.inr (Or.inl rfl))
    · subst hiv
      rw [hwu, rowcol_div hx, rowcol_mod hx]
      refine Or.inr (Or.inr (Or.inr ?_))
      rw [succ_pred_mod hy]
    · subst hiu
      rw [hwv, rowcol_div hx, rowcol_mod hx]
      exact Or.inr (Or.inr (Or.inr rfl))
    · subst hiv
      rw [hwu, rowcol_div hx, rowcol_mod hx]
      refine Or.inr (Or.inr (Or.inl ?_))
      rw [pred_succ_mod hy]
  · intro hw
    have hx : i % L < L := Nat.mod_lt _ hL0
    have hy : i / L < L := by
      rw [Nat.div_lt_iff_lt_mul hL0]
      exact hi
    have hieq : (i / L) * L + i % L = i := by
      rw [Nat.mul_comm]
      exact Nat.div_add_mod i L
    have e0 : latIdx L (i % L) (i / L) = i := by
      rw [latIdx_mod, Nat.mod_eq_of_lt hx, Nat.mod_eq_of_lt hy, hieq]
    simp only [latNbrs, Finset.mem_insert, Finset.mem_singleton] at hw
    rcases hw with rfl | rfl | rfl | rfl
    · refine ⟨(latIdx L (i % L) (i / L), latIdx L (i % L + 1) (i / L)), ?_, ?_, ?_⟩
      · simp only [latticePairs, List.mem_flatMap, List.mem_range, List.mem_cons,
          List.mem_singleton, List.not_mem_nil, or_false]
        exact ⟨i / L, hy, i % L, hx, Or.inl rfl⟩
      · dsimp only
        rw [e0, latIdx_mod, Nat.mod_eq_of_lt hy]
        intro hctr
        exact (succ_mod_ne hx (by omega)).symm
          (rowcol_inj hx (Nat.mod_lt _ hL0) (hieq.trans hctr)).2
      · dsimp only
        refine Or.inl ⟨e0.symm, ?_⟩
        rw [latIdx_mod, Nat.mod_eq_of_lt hy]
    · refine ⟨(latIdx L (i % L) (i / L), latIdx L (i % L + L - 1) (i / L)), ?_, ?_, ?_⟩
      · simp only [latticePairs, List.mem_flatMap, List.mem_range, List.mem_cons,
          List.mem_singleton, List.not_mem_nil, or_false]
        exact ⟨i / L, hy, i % L, hx, Or.inr (Or.inl rfl)⟩
      · dsimp only
        rw [e0, latIdx_mod, Nat.mod_eq_of_lt hy]
        intro hctr
        exact (pred_mod_ne hx (by omega)).symm
          (rowcol_inj hx (Nat.mod_lt _ hL0) (hieq.trans hctr)).2
      · dsimp only
        refine Or.inl ⟨e0.symm, ?_⟩
        rw [latIdx_mod, Nat.mod_eq_of_lt hy]
    · refine ⟨(latIdx L (i % L) (i / L), latIdx L (i % L) (i / L + 1)), ?_, ?_, ?_⟩
      · simp only [latticePairs, List.mem_flatMap, List.mem_range, List.mem_cons,
          List.mem_singleton, List.not_mem_nil, or_false]
        exact ⟨i / L, hy, i % L, hx, Or.inr (Or.inr (Or.inl rfl))⟩
      · dsimp only
        rw [e0, latIdx_mod, Nat.mod_eq_of_lt hx]
        intro hctr
        exact (succ_mod_ne hy (by omega)).symm
          (rowcol_inj hx hx (hieq.trans hctr)).1
      · dsimp only
        refine Or.inl ⟨e0.symm, ?_⟩
        rw [latIdx_mod, Nat.mod_eq_of_lt hx]
    · refine ⟨(latIdx L (i % L) (i / L), latIdx L (i % L) (i / L + L - 1)), ?_, ?_, ?_⟩
      · simp only [latticePairs, List.mem_flatMap, List.mem_range, List.mem_cons,
          List.mem_singleton, List.not_mem_nil, or_false]
        exact ⟨i / L, hy, i % L, hx, Or.inr (Or.inr (Or.inr rfl))⟩
      · dsimp only
        rw [e0, latIdx_mod, Nat.mod_eq_of_lt hx]
        intro hctr
        exact (pred_mod_ne hy (by omega)).symm
          (rowcol_inj hx hx (hieq.trans hctr)).1
      · dsimp only
        refine Or.inl ⟨e0.symm, ?_⟩
        rw [latIdx_mod, Nat.mod_eq_of_lt hx]

lemma card_latNbrs {L i : Nat} (hL : 3 ≤ L) (hi : i < L * L) :
    (latNbrs L i).card = 4 := by
  have hL0 : 0 < L := by omega
  have hx : i % L < L := Nat.mod_lt _ hL0
  have hy : i / L < L := by
    rw [Nat.div_lt_iff_lt_mul hL0]
    exact hi
  have hcol : (i % L + 1) % L ≠ (i % L + L - 1) % L := by
    have he : i % L + L - 1 = i % L + (L - 1) := Nat.add_sub_assoc (by omega) _
    rw [he]
    exact @offset_mod_ne L 1 (L - 1) (by omega) (by omega) (by omega) (i % L)
  have hrow : (i / L + 1) % L ≠ (i / L + L - 1) % L := by
    have he : i / L + L - 1 = i / L + (L - 1) := Nat.add_sub_assoc (by omega) _
    rw [he]
    exact @offset_mod_ne L 1 (L - 1) (by omega) (by omega) (by omega) (i / L)
  have hab : (i / L) * L + (i % L + 1) % L ≠ (i / L) * L + (i % L + L - 1) % L := by
    intro h
    exact hcol (rowcol_inj (Nat.mod_lt _ hL0) (Nat.mod_lt _ hL0) h).2
  have hac : (i / L) * L + (i % L + 1) % L ≠ ((i / L + 1) % L) * L + i % L := by
    intro h
    exact (succ_mod_ne hy (by omega)).symm
      (rowcol_inj (Nat.mod_lt _ hL0) hx h).1
  have had : (i / L) * L + (i % L + 1) % L ≠ ((i / L + L - 1) % L) * L + i % L := by
    intro h
    exact (pred_mod_ne hy (by omega)).symm
      (rowcol_inj (Nat.mod_lt _ hL0) hx h).1
  have hbc : (i / L) * L + (i % L + L - 1) % L ≠ ((i / L + 1) % L) * L + i % L := by
    intro h
    exact (succ_mod_ne hy (by omega)).symm
      (rowcol_inj (Nat.mod_lt _ hL0) hx h).1
  have hbd : (i / L) * L + (i % L + L - 1) % L ≠ ((i / L + L - 1) % L) * L + i % L := by
    intro h
    exact (pred_mod_ne hy (by omega)).symm
      (rowcol_inj (Nat.mod_lt _ hL0) hx h).1
  have hcd : ((i / L + 1) % L) * L + i % L ≠ ((i / L + L - 1) % L) * L + i % L := by
    intro h
    exact hrow (rowcol_inj hx hx h).1
  have hnm1 :
      (i / L) * L + (i % L + 1) % L ∉
        ({(i / L) * L + (i % L + L - 1) % L, ((i / L + 1) % L) * L + i % L,
          ((i / L + L - 1) % L) * L + i % L} : Finset Nat) := by
    intro hmem
    rcases Finset.mem_insert.mp hmem with h | hmem2
    · exact hab h
    · rcases Finset.mem_insert.mp hmem2 with h | hmem3
      · exact hac h
      · exact had (Finset.mem_singleton.mp hmem3)
  have hnm2 :
      (i / L) * L + (i % L + L - 1) % L ∉
        ({((i / L + 1) % L) * L + i % L, ((i / L + L - 1) % L) * L + i % L} :
          Finset Nat) := by
    intro hmem
    rcases Finset.mem_insert.mp hmem with h | hmem2
    · exact hbc h
    · exact hbd (Finset.mem_singleton.mp hmem2)
  have hnm3 :
      ((i / L + 1) % L) * L + i % L ∉
        ({((i / L + L - 1) % L) * L + i % L} : Finset Nat) := by
    intro hmem
    exact hcd (Finset.mem_singleton.mp hmem)
  unfold latNbrs
  rw [Finset.card_insert_of_not_mem hnm1, Finset.card_insert_of_not_mem hnm2,
    Finset.card_insert_of_not_mem hnm3, Finset.card_singleton]

lemma latticeG_degree {L i : Nat} (hL : 3 ≤ L) (hi : i < L * L) :
    degree (latticeG (L * L)) i = 4 := by
  have hs : Nat.sqrt (L * L) = L := by
    rw [← Nat.pow_two, Nat.sqrt_eq']
  have hinv := addEdges_inv (latticePairs (Nat.sqrt (L * L))) (newGraph (L * L))
    (newGraph_inv (L * L))
  have hnd : ((latticeG (L * L)).adj i).Nodup := hinv.2.2 i
  have hmem : ∀ w, w ∈ (latticeG (L * L)).adj i ↔ w ∈ latNbrs L i := by
    intro w
    unfold latticeG
    rw [hs]
    exact mem_latticeAdj hL hi
  exact (degree_eq_card hnd hmem).trans (card_latNbrs hL hi)

lemma latticeG_N (N : Nat) : (latticeG N).N = N := by
  unfold latticeG
  rw [addEdges_N]
  rfl

/-- C2 counterexample.  `N = 4` is a perfect square and `makeLattice(4)`
raises no error, but on the 2x2 torus the `+1` and `-1` wraparound
neighbours coincide: every node has degree 2, not 4, and the edge count is
4, not `2N = 8`. -/
theorem lattice_claim_counterexample :
    (2 * 2 = 4) ∧ makeLattice 4 = Except.ok (latticeG 4) ∧
      degree (latticeG 4) 0 = 2 ∧ ¬ degree (latticeG 4) 0 = 4 ∧
      edgeCount (latticeG 4) = 4 := by
  have hs4 : Nat.sqrt 4 = 2 := by
    rw [show (4 : Nat) = 2 ^ 2 from rfl, Nat.sqrt_eq']
  have hlat : latticeG 4 = addEdges (newGraph 4) (latticePairs 2) := by
    unfold latticeG
    rw [hs4]
  have hmk : makeLattice 4 = Except.ok (latticeG 4) := by
    unfold makeLattice
    rw [if_neg (by rw [hs4]; exact Decidable.not_not.mpr rfl)]
  refine ⟨rfl, hmk, ?_, ?_, ?_⟩ <;> rw [hlat] <;> decide

/-- C2 amended: `makeLattice` raises its invalid-parameter error exactly
for non-perfect-square `N`; and for perfect squares `N = L * L` with side
`L ≥ 3` — the side bound is what the counterexamples `N = 1, 4` force —
every node has degree exactly 4 and the edge count is `2N`. -/
theorem lattice_claim_amended :
    (∀ N : Nat,
      (makeLattice N =
        Except.error "For lattice, N must be a perfect square (e.g., 400, 900)." ↔
        ¬ ∃ m, m * m = N)) ∧
    ∀ L N : Nat, 3 ≤ L → N = L * L →
      makeLattice N = Except.ok (latticeG N) ∧
        (∀ i, i < N → degree (latticeG N) i = 4) ∧
        edgeCount (latticeG N) = 2 * N := by
  constructor
  · intro N
    unfold makeLattice
    split
    · rename_i hne
      constructor
      · rintro - ⟨m, rfl⟩
        have hs : Nat.sqrt (m * m) = m := by
          rw [show m * m = m ^ 2 from (pow_two m).symm, Nat.sqrt_eq']
        rw [hs] at hne
        exact hne rfl
      · intro
        rfl
    · rename_i heq
      have hsq : Nat.sqrt N * Nat.sqrt N = N := Decidable.not_not.mp heq
      constructor
      · intro hok
        cases hok
      · intro hno
        exact absurd ⟨Nat.sqrt N, hsq⟩ hno
  · rintro L N hL rfl
    have hs : Nat.sqrt (L * L) = L := by
      rw [← Nat.pow_two, Nat.sqrt_eq']
    have hok : makeLattice (L * L) = Except.ok (latticeG (L * L)) := by
      unfold makeLattice
      rw [if_neg (by rw [hs]; exact Decidable.not_not.mpr rfl)]
    refine ⟨hok, fun i hi => latticeG_degree hL hi, ?_⟩
    unfold edgeCount
    have hdeg : ∀ i, i < (latticeG (L * L)).N → degree (latticeG (L * L)) i = 4 := by
      rw [latticeG_N]
      intro i hi
      exact latticeG_degree hL hi
    rw [sum_const_degrees hdeg, latticeG_N]
    omega

/-- Witness for the amended C2 at `N = 16` (`L = 4`): degree 4 everywhere
and 32 edges, the spec's own example. -/
theorem lattice_claim_amended_witness :
    (3 ≤ 4 ∧ 16 = 4 * 4) ∧
      makeLattice 16 = Except.ok (latticeG 16) ∧
      degree (latticeG 16) 0 = 4 ∧ edgeCount (latticeG 16) = 2 * 16 :=
  ⟨⟨by decide, by decide⟩,
   (lattice_claim_amended.2 4 16 (by decide) (by decide)).1,
   (lattice_claim_amended.2 4 16 (by decide) (by decide)).2.1 0 (by decide),
   (lattice_claim_amended.2 4 16 (by decide) (by decide)).2.2⟩

/-!
The payoff model (claim C9): the accumulator loop of `computePayoffs`
computes, for each node, the sum of the spec's matrix-entry map over its
neighbour list.
-/

lemma payRow_sum (M : GameMatrix) (strat : List Nat) (si : Nat) :
    ∀ (l : List Nat) (acc : ℚ),
      payRow M strat si l acc =
        acc + (l.map fun j => payoffEntry M si (strat.getD j 0)).sum := by
  intro l
  induction l with
  | nil => intro acc; simp [payRow]
  | cons j rest ih =>
    intro acc
    rw [payRow, ih]
    simp [List.sum_cons]
    ring

lemma payoffEntry_eq_spec (M : GameMatrix) {si sj : Nat}
    (hsi : si = 0 ∨ si = 1) (hsj : sj = 0 ∨ sj = 1) :
    payoffEntry M si sj = specMatrixEntry M si sj := by
  rcases hsi with rfl | rfl <;> rcases hsj with rfl | rfl <;>
    simp [payoffEntry, specMatrixEntry]

lemma strat_getD_binary {strat : List Nat} (hb : ∀ x ∈ strat, x = 0 ∨ x = 1)
    (j : Nat) : strat.getD j 0 = 0 ∨ strat.getD j 0 = 1 := by
  rcases Nat.lt_or_ge j strat.length with h | h
  · rw [List.getD_eq_getElem _ _ h]
    exact hb _ (List.getElem_mem h)
  · rw [List.getD_eq_default _ _ h]
    exact Or.inl rfl

/-- C9: `computePayoffs` returns one entry per node, and for every node
`i < N` the entry is the sum over the neighbours `j` of the matrix entry
selected by the strategy pair, under the spec's mapping `(C,C) → R`,
`(C,D) → S`, `(D,C) → T`, `(D,D) → P`.  Purity is structural in this
embedding: the function takes no RNG state and builds a fresh list, leaving
graph and strategies untouched. -/
theorem computePayoffs_matches_spec (g : Graph) (strat : List Nat)
    (M : GameMatrix) (hb : ∀ x ∈ strat, x = 0 ∨ x = 1) :
    (computePayoffs g strat M).length = g.N ∧
      ∀ i, i < g.N →
        (computePayoffs g strat M).getD i 0 =
          ((g.adj i).map fun j =>
            specMatrixEntry M (strat.getD i 0) (strat.getD j 0)).sum := by
  constructor
  · rw [computePayoffs, List.length_map, List.length_range]
  · intro i hi
    have hlen : i < (computePayoffs g strat M).length := by
      rw [computePayoffs, List.length_map, List.length_range]
      exact hi
    rw [List.getD_eq_getElem _ _ hlen]
    unfold computePayoffs
    rw [List.getElem_map]
    rw [List.getElem_range, payRow_sum, zero_add]
    congr 1
    apply List.map_congr_left
    intro j hj
    exact payoffEntry_eq_spec M (strat_getD_binary hb i) (strat_getD_binary hb j)

/-- Witness for C9 on the 3-ring with strategies `[1, 0, 1]`. -/
theorem computePayoffs_matches_spec_witness :
    (∀ x ∈ [1, 0, 1], x = 0 ∨ x = 1) ∧
      (computePayoffs (ringG 3 2) [1, 0, 1] ⟨1, 2, 3, 4⟩).length = (ringG 3 2).N ∧
      (computePayoffs (ringG 3 2) [1, 0, 1] ⟨1, 2, 3, 4⟩).getD 0 0 =
        (((ringG 3 2).adj 0).map fun j =>
          specMatrixEntry ⟨1, 2, 3, 4⟩ (List.getD [1, 0, 1] 0 0)
            (List.getD [1, 0, 1] j 0)).sum :=
  ⟨by decide,
   (computePayoffs_matches_spec (ringG 3 2) [1, 0, 1] ⟨1, 2, 3, 4⟩ (by decide)).1,
   (computePayoffs_matches_spec (ringG 3 2) [1, 0, 1] ⟨1, 2, 3, 4⟩ (by decide)).2 0
     (by decide)⟩

/-!
Frame property of the update rules (claim C7): each invocation writes at
most the selected node's entry, and a tick whose selected node is isolated
leaves the whole array untouched.
-/

lemma getD_set_ne (l : List Nat) (n j v d : Nat) (hj : j ≠ n) :
    (l.set n v).getD j d = l.getD j d := by
  rw [List.getD_eq_getElem?_getD, List.getD_eq_getElem?_getD,
    List.getElem?_set_ne (Ne.symm hj)]

lemma stepDB_frame (g : Graph) (strat : List Nat) (M : GameMatrix) (w mu : ℚ)
    (s j : Nat) (hj : j ≠ dbDead g s) :
    (stepDB g strat M w mu s).1.getD j 0 = strat.getD j 0 := by
  simp only [stepDB]
  by_cases hc : (g.adj (dbDead g s)).length = 0
  · rw [if_pos hc]
  · rw [if_neg hc]
    exact getD_set_ne _ _ _ _ _ hj

lemma stepDB_noop (g : Graph) (strat : List Nat) (M : GameMatrix) (w mu : ℚ)
    (s : Nat) (h : g.adj (dbDead g s) = []) :
    (stepDB g strat M w mu s).1 = strat := by
  simp only [stepDB]
  rw [if_pos (by rw [h]; rfl)]

lemma bdDead_eq_of_get? {g : Graph} {strat : List Nat} {M : GameMatrix}
    {w : ℚ} {s dead : Nat}
    (hE : (g.adj (bdParent g strat M w s)).get?
      (rngInt
        (pickWeightedIndex
          ((List.range g.N).map fun i =>
            fitnessOf w ((computePayoffs g strat M).getD i 0)) s).2
        (g.adj (bdParent g strat M w s)).length).1 = some dead) :
    bdDead g strat M w s = dead := by
  unfold bdDead
  rw [List.getD_eq_getElem?_getD, ← List.get?_eq_getElem?]
  rw [hE]
  rfl

lemma stepBD_frame (g : Graph) (strat : List Nat) (M : GameMatrix) (w mu : ℚ)
    (s j : Nat) (hj : j ≠ bdDead g strat M w s) :
    (stepBD g strat M w mu s).1.getD j 0 = strat.getD j 0 := by
  simp only [stepBD]
  by_cases hc :
      (g.adj (pickWeightedIndex
        ((List.range g.N).map fun i =>
          fitnessOf w ((computePayoffs g strat M).getD i 0)) s).1).length = 0
  · rw [if_pos hc]
  · rw [if_neg hc]
    rcases hE : (g.adj (pickWeightedIndex
        ((List.range g.N).map fun i =>
          fitnessOf w ((computePayoffs g strat M).getD i 0)) s).1).get?
        (rngInt
          (pickWeightedIndex
            ((List.range g.N).map fun i =>
              fitnessOf w ((computePayoffs g strat M).getD i 0)) s).2
          (g.adj (pickWeightedIndex
            ((List.range g.N).map fun i =>
              fitnessOf w ((computePayoffs g strat M).getD i 0)) s).1).length).1
        with _ | dead
    · rfl
    · have hdead : bdDead g strat M w s = dead := bdDead_eq_of_get? hE
      dsimp only
      exact getD_set_ne _ _ _ _ _ (hdead ▸ hj)

lemma stepBD_noop (g : Graph) (strat : List Nat) (M : GameMatrix) (w mu : ℚ)
    (s : Nat) (h : g.adj (bdParent g strat M w s) = []) :
    (stepBD g strat M w mu s).1 = strat := by
  simp only [stepBD]
  rw [if_pos (by rw [show (pickWeightedIndex
    ((List.range g.N).map fun i =>
      fitnessOf w ((computePayoffs g strat M).getD i 0)) s).1 =
        bdParent g strat M w s from rfl, h]; rfl)]

lemma stepIM_frame (fexp : ℚ → ℚ) (g : Graph) (strat : List Nat)
    (M : GameMatrix) (beta mu : ℚ) (s j : Nat) (hj : j ≠ imFocal g s) :
    (stepImitationFermi fexp g strat M beta mu s).1.getD j 0 = strat.getD j 0 := by
  simp only [stepImitationFermi]
  by_cases hc : (g.adj (imFocal g s)).length = 0
  · rw [if_pos hc]
  · rw [if_neg hc]
    rcases hE : (g.adj (imFocal g s)).get?
        (rngInt (rngInt s g.N).2 (g.adj (imFocal g s)).length).1 with _ | j'
    · rfl
    · dsimp only
      split
      · exact getD_set_ne _ _ _ _ _ hj
      · rfl

lemma stepIM_noop (fexp : ℚ → ℚ) (g : Graph) (strat : List Nat)
    (M : GameMatrix) (beta mu : ℚ) (s : Nat) (h : g.adj (imFocal g s) = []) :
    (stepImitationFermi fexp g strat M beta mu s).1 = strat := by
  simp only [stepImitationFermi]
  rw [if_pos (by rw [h]; rfl)]

/-- C7: every invocation of the three update rules changes the strategy
array at most at its selected node — the dead node of `stepDB`, the
replaced neighbour of `stepBD`, the focal node of `stepImitationFermi`;
every other entry is unchanged, and a tick whose selected node is isolated
is a defined no-op returning the array untouched. -/
theorem step_rules_frame (fexp : ℚ → ℚ) (g : Graph) (strat : List Nat)
    (M : GameMatrix) (w beta mu : ℚ) (s : Nat) :
    (∀ j, j ≠ dbDead g s →
      (stepDB g strat M w mu s).1.getD j 0 = strat.getD j 0) ∧
    (g.adj (dbDead g s) = [] → (stepDB g strat M w mu s).1 = strat) ∧
    (∀ j, j ≠ bdDead g strat M w s →
      (stepBD g strat M w mu s).1.getD j 0 = strat.getD j 0) ∧
    (g.adj (bdParent g strat M w s) = [] → (stepBD g strat M w mu s).1 = strat) ∧
    (∀ j, j ≠ imFocal g s →
      (stepImitationFermi fexp g strat M beta mu s).1.getD j 0 = strat.getD j 0) ∧
    (g.adj (imFocal g s) = [] →
      (stepImitationFermi fexp g strat M beta mu s).1 = strat) :=
  ⟨fun j hj => stepDB_frame g strat M w mu s j hj,
   stepDB_noop g strat M w mu s,
   fun j hj => stepBD_frame g strat M w mu s j hj,
   stepBD_noop g strat M w mu s,
   fun j hj => stepIM_frame fexp g strat M beta mu s j hj,
   stepIM_noop fexp g strat M beta mu s⟩

/-- Witness for C7: on a single isolated node every rule is a no-op, and
entry 2 (different from every selected node, which is 0 here) is untouched. -/
theorem step_rules_frame_witness :
    ((newGraph 1).adj (dbDead (newGraph 1) (mkState 7)) = [] →
      (stepDB (newGraph 1) [1] ⟨1, 0, 0, 0⟩ 0 0 (mkState 7)).1 = [1]) ∧
      ((newGraph 1).adj (dbDead (newGraph 1) (mkState 7)) = []) ∧
      (stepDB (newGraph 1) [1] ⟨1, 0, 0, 0⟩ 0 0 (mkState 7)).1 = [1] :=
  ⟨(step_rules_frame (fun _ => 1) (newGraph 1) [1] ⟨1, 0, 0, 0⟩ 0 0 0
      (mkState 7)).2.1,
   rfl,
   (step_rules_frame (fun _ => 1) (newGraph 1) [1] ⟨1, 0, 0, 0⟩ 0 0 0
      (mkState 7)).2.1 rfl⟩
